import Mathlib

/-!
Shallow embedding of the link-analysis core of this repository
(`lib/linkAnalysis.ts`): `normalizeLine`, `hostnameToDomain`, `domainToTld`,
`analyzeLinks` and their helpers, together with a model of the platform
pieces they call into.

Modelling conventions:
* A JavaScript string is a `List Char`; `.length` is the element count
  (the sources only exercise characters below the surrogate range, where
  UTF-16 code-unit counting and character counting agree).
* `String.prototype.trim` is modelled by `jsTrim` over the JS whitespace
  character class; `toLowerCase` by per-character ASCII lowering (the
  sources never feed non-ASCII cased letters to it).
* A JavaScript plain object used as a counter map (`Record<string, number>`)
  is an association list in key-insertion order; `inc` mutating
  `map[key] = (map[key] ?? 0) + 1` keeps an existing key in place and
  appends a new key at the end, exactly as JS object key order does.
* A JavaScript `Map` built from a list of `[key, value]` entries keeps keys
  in first-insertion order and, for a repeated key, overwrites the stored
  value in place (`mapInsert` / `jsMapOfList`).
* `safeId()` reads ambient randomness (`crypto.randomUUID` or
  `Date.now`/`Math.random`) and `new Date().toISOString()` reads the system
  clock.  These ambient capabilities are made explicit: `analyzeLinks`
  takes an id stream `gen : Nat → List Char` (successive `safeId()` results:
  row `k` consumes `gen k`, the report id consumes the next value) and a
  timestamp `now`.
* `new URL(s)` is the WHATWG URL parser, a platform builtin that is not
  part of this repository.  `parseURL` models its behaviour on the fragment
  exercised here: scheme recognition, the special schemes
  http/https/ws/wss/ftp/file (host required except for file, ASCII host
  lowercasing, default path `/`), opaque non-special URLs (host preserved
  verbatim or absent), query and fragment splitting, and
  `URLSearchParams` pair counting (one pair per nonempty `&`-segment).
  Percent-encoding, IDNA/punycode, dot-segment removal, port validation,
  userinfo beyond `@`-splitting and in-string tab/newline stripping are not
  modelled; no claim below depends on them.
-/

/-- Character list of a string literal (JS strings as `List Char`). -/
def chars (s : String) : List Char := s.data

/-- JS WhiteSpace / LineTerminator class used by `String.prototype.trim`. -/
def jsWs (c : Char) : Bool :=
  c == ' ' || c == '\t' || c == '\n' || c == '\r' ||
  c == Char.ofNat 11 || c == Char.ofNat 12 || c == Char.ofNat 160 ||
  c == Char.ofNat 5760 || (8192 ≤ c.toNat && c.toNat ≤ 8202) ||
  c == Char.ofNat 8232 || c == Char.ofNat 8233 || c == Char.ofNat 8239 ||
  c == Char.ofNat 8287 || c == Char.ofNat 12288 || c == Char.ofNat 65279

/-- Drop leading JS whitespace. -/
def trimLeftWs : List Char → List Char
  | [] => []
  | c :: rest => if jsWs c then trimLeftWs rest else c :: rest

/-- Drop trailing JS whitespace. -/
def trimRightWs (l : List Char) : List Char :=
  (trimLeftWs l.reverse).reverse

/-- `String.prototype.trim`. -/
def jsTrim (l : List Char) : List Char :=
  trimRightWs (trimLeftWs l)

/-- ASCII per-character lowering, modelling `toLowerCase` on the ASCII
strings this code feeds it. -/
def toLowerCaseL (l : List Char) : List Char := l.map Char.toLower

/-- Helper for `splitLines`: accumulates the current line (reversed);
a `"\n"` ends a line and a single `'\r'` immediately before it is dropped,
exactly the separators of the regex `/\r?\n/g`. -/
def splitLinesAux : List Char → List Char → List (List Char)
  | acc, [] => [acc.reverse]
  | acc, c :: rest =>
    if c = '\n' then
      (match acc with
       | '\r' :: a => a.reverse
       | _ => acc.reverse) :: splitLinesAux [] rest
    else splitLinesAux (c :: acc) rest

/-- `input.split(/\r?\n/g)`. -/
def splitLines (l : List Char) : List (List Char) :=
  splitLinesAux [] l

/-- Scheme body characters of the regex `[a-zA-Z0-9+.-]`. -/
def schemeCharB (c : Char) : Bool :=
  c.isAlphanum || c == '+' || c == '.' || c == '-'

/-- Scans scheme-body characters until a `':'`; returns the scanned scheme
body (without the leading letter) and the remainder after the colon. -/
def splitScheme : List Char → List Char → Option (List Char × List Char)
  | _, [] => none
  | acc, c :: rest =>
    if c = ':' then some (acc.reverse, rest)
    else if schemeCharB c then splitScheme (c :: acc) rest
    else none

/-- The test `/^[a-zA-Z][a-zA-Z0-9+.-]*:/.test(s)`. -/
def hasSchemeB : List Char → Bool
  | [] => false
  | c :: rest => c.isAlpha && (splitScheme [] rest).isSome

/-- `trimmed.startsWith("//")`. -/
def startsWithSlashSlash : List Char → Bool
  | '/' :: '/' :: _ => true
  | _ => false

/-- `normalizeLine` from the source: trim; empty to empty; protocol-relative
lines get `https:` prepended; otherwise, only when `assumeHttps` is set and
no scheme is detected, prepend `https://`. -/
def normalizeLine (raw : List Char) (assumeHttps : Bool) : List Char :=
  let trimmed := jsTrim raw
  if trimmed.length = 0 then []
  else if startsWithSlashSlash trimmed then chars "https:" ++ trimmed
  else if !assumeHttps then trimmed
  else if hasSchemeB trimmed then trimmed
  else chars "https://" ++ trimmed

/-- `hostname.replace(/^www\./i, "")`: a single leading `www.` removed,
matched case-insensitively. -/
def stripWww (h : List Char) : List Char :=
  match h with
  | w1 :: w2 :: w3 :: d :: rest =>
    if w1.toLower = 'w' ∧ w2.toLower = 'w' ∧ w3.toLower = 'w' ∧ d = '.' then rest
    else h
  | _ => h

/-- `hostnameToDomain` from the source: strip a leading `www.`; if that
leaves an empty string, fall back to the original hostname. -/
def hostnameToDomain (hostname : List Char) : List Char :=
  let withoutWww := stripWww hostname
  if withoutWww.length ≠ 0 then withoutWww else hostname

/-- Split a character list on a separator character (`String.split`). -/
def splitOnChar (sep : Char) : List Char → List (List Char)
  | [] => [[]]
  | c :: rest =>
    let r := splitOnChar sep rest
    if c = sep then [] :: r
    else
      match r with
      | [] => [[c]]
      | s :: ss => (c :: s) :: ss

/-- `domainToTld` from the source: the last nonempty `.`-separated part of
the domain, lowercased; absent only when there is no such part. -/
def domainToTld (domain : List Char) : Option (List Char) :=
  let parts := (splitOnChar '.' domain).filter (fun s => !s.isEmpty)
  match parts.getLast? with
  | some p => some (toLowerCaseL p)
  | none => none

/-- Result of a successful `new URL(...)` parse (the components the source
reads). `protocol` carries the trailing colon as `url.protocol` does. -/
structure URLRec where
  protocol : List Char
  hostname : List Char
  pathname : List Char
  query : List Char
  fragment : List Char
deriving DecidableEq

/-- WHATWG special schemes. -/
def specialSchemeB (s : List Char) : Bool :=
  s == chars "http" || s == chars "https" || s == chars "ws" ||
  s == chars "wss" || s == chars "ftp" || s == chars "file"

/-- Code points that make a special-scheme host invalid in this model
(controls, space, and WHATWG forbidden host punctuation). -/
def forbiddenHostCharB (c : Char) : Bool :=
  c.toNat ≤ 32 || c == '<' || c == '>' || c == '[' || c == ']' ||
  c == '^' || c == '|'

/-- Segment after the last `'@'` (userinfo stripping). -/
def afterLastAt (l : List Char) : List Char :=
  (l.reverse.takeWhile (fun c => c != '@')).reverse

/-- Split `path?query#fragment` into its three components. -/
def splitPathQueryFrag (l : List Char) : List Char × List Char × List Char :=
  let beforeHash := l.takeWhile (fun c => c != '#')
  let frag := (l.dropWhile (fun c => c != '#')).drop 1
  let path := beforeHash.takeWhile (fun c => c != '?')
  let query := (beforeHash.dropWhile (fun c => c != '?')).drop 1
  (path, query, frag)

/-- Special-scheme parse: skip authority slashes, cut the authority at the
first delimiter, require a nonempty valid host (file may be hostless),
lowercase it, default the path to `/`. -/
def parseSpecial (scheme : List Char) (afterColon : List Char) :
    Except (List Char) URLRec :=
  let rest := afterColon.dropWhile (fun c => c == '/' || c == '\\')
  let auth := rest.takeWhile
    (fun c => !(c == '/' || c == '\\' || c == '?' || c == '#'))
  let tail := rest.dropWhile
    (fun c => !(c == '/' || c == '\\' || c == '?' || c == '#'))
  let host := (afterLastAt auth).takeWhile (fun c => c != ':')
  if host.isEmpty ∧ scheme ≠ chars "file" then .error (chars "Invalid URL")
  else if host.any forbiddenHostCharB then .error (chars "Invalid URL")
  else
    let (path, query, frag) := splitPathQueryFrag tail
    .ok { protocol := scheme ++ [':'],
          hostname := toLowerCaseL host,
          pathname :=
            if path.isEmpty then chars "/"
            else path.map (fun c => if c = '\\' then '/' else c),
          query := query, fragment := frag }

/-- Non-special parse: `//` authority with an opaque (case-preserved,
possibly empty) host, otherwise an opaque path. -/
def parseNonSpecial (scheme : List Char) (afterColon : List Char) :
    Except (List Char) URLRec :=
  match afterColon with
  | '/' :: '/' :: rest =>
    let auth := rest.takeWhile (fun c => !(c == '/' || c == '?' || c == '#'))
    let tail := rest.dropWhile (fun c => !(c == '/' || c == '?' || c == '#'))
    let host := (afterLastAt auth).takeWhile (fun c => c != ':')
    if host.any forbiddenHostCharB then .error (chars "Invalid URL")
    else
      let (path, query, frag) := splitPathQueryFrag tail
      .ok { protocol := scheme ++ [':'], hostname := host,
            pathname := path, query := query, fragment := frag }
  | _ =>
    let (path, query, frag) := splitPathQueryFrag afterColon
    .ok { protocol := scheme ++ [':'], hostname := [],
          pathname := path, query := query, fragment := frag }

/-- Model of `new URL(input)` on an absolute URL: succeeds or fails with the
thrown `TypeError`'s message. A missing scheme always fails. -/
def parseURL (input : List Char) : Except (List Char) URLRec :=
  match input with
  | [] => .error (chars "Invalid URL")
  | c :: rest =>
    if c.isAlpha then
      match splitScheme [] rest with
      | none => .error (chars "Invalid URL")
      | some (schemeTail, afterColon) =>
        let scheme := toLowerCaseL (c :: schemeTail)
        if specialSchemeB scheme then parseSpecial scheme afterColon
        else parseNonSpecial scheme afterColon
    else .error (chars "Invalid URL")

/-- `LinkRow` from the source; absent optional fields are `none`. -/
structure LinkRow where
  id : List Char
  raw : List Char
  normalized : List Char
  isValid : Bool
  error : Option (List Char)
  protocol : Option (List Char)
  hostname : Option (List Char)
  domain : Option (List Char)
  tld : Option (List Char)
  pathname : Option (List Char)
  queryParams : Nat
  hasHash : Bool
  length : Nat
deriving DecidableEq

/-- The `metrics` object of `LinkAnalysis`. `avgLength` is the exact
rational value of the JS division. -/
structure Metrics where
  total : Nat
  valid : Nat
  invalid : Nat
  uniqueDomains : Nat
  withQuery : Nat
  withHash : Nat
  avgLength : Rat
deriving DecidableEq

/-- The `distributions` object: three insertion-ordered counter maps. -/
structure Distributions where
  protocol : List (List Char × Nat)
  domain : List (List Char × Nat)
  tld : List (List Char × Nat)
deriving DecidableEq

/-- `LinkAnalysis` from the source. -/
structure LinkAnalysis where
  id : List Char
  createdAt : List Char
  input : List Char
  items : List LinkRow
  metrics : Metrics
  distributions : Distributions
deriving DecidableEq

/-- `AnalyzeOptions` from the source. -/
structure AnalyzeOptions where
  assumeHttps : Bool
  dedupe : Bool
deriving DecidableEq

/-- `inc` from the source: `map[key] = (map[key] ?? 0) + 1` on a plain
object — update in place, or append a fresh key at the end. -/
def inc (map : List (List Char × Nat)) (key : List Char) :
    List (List Char × Nat) :=
  match map with
  | [] => [(key, 1)]
  | (k, v) :: rest =>
    if k = key then (k, v + 1) :: rest else (k, v) :: inc rest key

/-- `Map.prototype.set` semantics: overwrite in place or append. -/
def mapInsert {α : Type} (m : List (List Char × α)) (k : List Char) (v : α) :
    List (List Char × α) :=
  match m with
  | [] => [(k, v)]
  | (k1, v1) :: rest =>
    if k1 = k then (k1, v) :: rest else (k1, v1) :: mapInsert rest k v

/-- `new Map(entries)`: left-to-right insertion. -/
def jsMapOfList {α : Type} (l : List (List Char × α)) :
    List (List Char × α) :=
  l.foldl (fun m p => mapInsert m p.1 p.2) []

/-- The dedup step of `analyzeLinks`:
`Array.from(new Map(list.map(it => [it.normalized.toLowerCase(), it])).values())`. -/
def dedupeNormalized (pairs : List (List Char × List Char)) :
    List (List Char × List Char) :=
  (jsMapOfList (pairs.map (fun it => (toLowerCaseL it.2, it)))).map Prod.snd

/-- `Array.from(url.searchParams.keys()).length`: `URLSearchParams` yields
one pair per nonempty `&`-segment of the query. -/
def countSearchParams (query : List Char) : Nat :=
  ((splitOnChar '&' query).filter (fun s => !s.isEmpty)).length

/-- `url.protocol.replace(":", "")`: remove the first colon. -/
def removeFirstColon : List Char → List Char
  | [] => []
  | c :: rest => if c = ':' then rest else c :: removeFirstColon rest

/-- JS truthiness of an optional string field. -/
def strTruthy : Option (List Char) → Bool
  | some s => !s.isEmpty
  | none => false

/-- The `base` row object built before classification. -/
def baseRow (id raw normalized : List Char) : LinkRow :=
  { id := id, raw := raw, normalized := normalized, isValid := false,
    error := none, protocol := none, hostname := none, domain := none,
    tld := none, pathname := none, queryParams := 0, hasHash := false,
    length := normalized.length }

/-- The `try { new URL(...) } catch` body of the row builder in
`analyzeLinks`. -/
def classifyRow (id raw normalized : List Char) : LinkRow :=
  match parseURL normalized with
  | .ok url =>
    let protocol := removeFirstColon url.protocol
    let hostname : Option (List Char) :=
      if url.hostname.isEmpty then none else some url.hostname
    let domain : Option (List Char) :=
      match hostname with
      | some h => some (hostnameToDomain h)
      | none => none
    let hash : List Char :=
      if url.fragment.isEmpty then [] else '#' :: url.fragment
    { baseRow id raw normalized with
      isValid := true,
      protocol := some protocol,
      hostname := hostname,
      domain := domain,
      tld :=
        match domain with
        | some d => if d.isEmpty then none else domainToTld d
        | none => none,
      pathname := some url.pathname,
      queryParams := countSearchParams url.query,
      hasHash := !hash.isEmpty && decide (1 < hash.length) }
  | .error msg =>
    { baseRow id raw normalized with error := some msg }

/-- The `unique.map(...)` row construction: one `safeId()` per row, drawn
in order from the id stream. -/
def mkRows (gen : Nat → List Char) :
    Nat → List (List Char × List Char) → List LinkRow
  | _, [] => []
  | k, (raw, normalized) :: rest =>
    classifyRow (gen k) raw normalized :: mkRows gen (k + 1) rest

/-- Accumulator of the aggregation loop of `analyzeLinks`. -/
structure AggState where
  protocolDist : List (List Char × Nat)
  domainDist : List (List Char × Nat)
  tldDist : List (List Char × Nat)
  valid : Nat
  invalid : Nat
  withQuery : Nat
  withHash : Nat
  lengthSum : Nat

/-- Initial accumulator: empty maps, zero counters. -/
def aggInit : AggState :=
  { protocolDist := [], domainDist := [], tldDist := [],
    valid := 0, invalid := 0, withQuery := 0, withHash := 0, lengthSum := 0 }

/-- One iteration of the `for (const it of items)` aggregation loop. -/
def aggStep (st : AggState) (it : LinkRow) : AggState :=
  { protocolDist :=
      if strTruthy it.protocol then inc st.protocolDist (it.protocol.getD [])
      else st.protocolDist,
    domainDist :=
      if strTruthy it.domain then
        inc st.domainDist (toLowerCaseL (it.domain.getD []))
      else st.domainDist,
    tldDist :=
      if strTruthy it.tld then inc st.tldDist (it.tld.getD [])
      else st.tldDist,
    valid := if it.isValid then st.valid + 1 else st.valid,
    invalid := if it.isValid then st.invalid else st.invalid + 1,
    withQuery := if 0 < it.queryParams then st.withQuery + 1 else st.withQuery,
    withHash := if it.hasHash then st.withHash + 1 else st.withHash,
    lengthSum := st.lengthSum + it.length }

/-- The line splitter: split on `/\r?\n/g`, trim each line, drop empties. -/
def linesOf (input : List Char) : List (List Char) :=
  ((splitLines input).map jsTrim).filter (fun l => decide (0 < l.length))

/-- The `(raw, normalized)` pair list of `analyzeLinks`. -/
def normalizedPairs (input : List Char) (assumeHttps : Bool) :
    List (List Char × List Char) :=
  (linesOf input).map (fun raw => (raw, normalizeLine raw assumeHttps))

/-- The `unique` list: deduped only when `options.dedupe` is set. -/
def uniqueOf (input : List Char) (options : AnalyzeOptions) :
    List (List Char × List Char) :=
  if options.dedupe then
    dedupeNormalized (normalizedPairs input options.assumeHttps)
  else normalizedPairs input options.assumeHttps

/-- The `items` array of `analyzeLinks`. -/
def itemsOf (input : List Char) (options : AnalyzeOptions)
    (gen : Nat → List Char) : List LinkRow :=
  mkRows gen 0 (uniqueOf input options)

/-- The fully folded aggregation state. -/
def aggOf (input : List Char) (options : AnalyzeOptions)
    (gen : Nat → List Char) : AggState :=
  (itemsOf input options gen).foldl aggStep aggInit

/-- `analyzeLinks` from the source, with the ambient id stream and clock
made explicit (see the header comment). -/
def analyzeLinks (input : List Char) (options : AnalyzeOptions)
    (gen : Nat → List Char) (now : List Char) : LinkAnalysis :=
  { id := gen (itemsOf input options gen).length,
    createdAt := now,
    input := input,
    items := itemsOf input options gen,
    metrics :=
      { total := (itemsOf input options gen).length,
        valid := (aggOf input options gen).valid,
        invalid := (aggOf input options gen).invalid,
        uniqueDomains := (aggOf input options gen).domainDist.length,
        withQuery := (aggOf input options gen).withQuery,
        withHash := (aggOf input options gen).withHash,
        avgLength :=
          if (itemsOf input options gen).length = 0 then 0
          else ((aggOf input options gen).lengthSum : Rat) /
            ((itemsOf input options gen).length : Rat) },
    distributions :=
      { protocol := (aggOf input options gen).protocolDist,
        domain := (aggOf input options gen).domainDist,
        tld := (aggOf input options gen).tldDist } }

/-- A concrete id stream standing for one ambient `safeId` state. -/
def gen0 : Nat → List Char := fun _ => []

/-! ### Aggregation lemmas -/

theorem agg_valid_invalid (l : List LinkRow) (st : AggState) :
    (l.foldl aggStep st).valid + (l.foldl aggStep st).invalid
      = st.valid + st.invalid + l.length := by
  induction l generalizing st with
  | nil => simp
  | cons it rest ih =>
    simp only [List.foldl_cons, List.length_cons]
    rw [ih]
    by_cases h : it.isValid = true <;> simp [aggStep, h] <;> omega

theorem agg_lengthSum (l : List LinkRow) (st : AggState) :
    (l.foldl aggStep st).lengthSum
      = st.lengthSum + (l.map LinkRow.length).sum := by
  induction l generalizing st with
  | nil => simp
  | cons it rest ih =>
    simp only [List.foldl_cons, List.map_cons, List.sum_cons]
    rw [ih]
    simp only [aggStep]
    omega

/-! ### Claim C2 -/

/-- C2: for every input string and every `{assumeHttps, dedupe}` combination
(together with any ambient id/clock state), `analyzeLinks` returns a
well-formed `LinkAnalysis` — it is a total function in this model — and
`metrics.valid + metrics.invalid = metrics.total = items.length`. -/
theorem analyzeLinks_total_metrics_partition
    (input : List Char) (options : AnalyzeOptions)
    (gen : Nat → List Char) (now : List Char) :
    (analyzeLinks input options gen now).metrics.valid
        + (analyzeLinks input options gen now).metrics.invalid
      = (analyzeLinks input options gen now).metrics.total ∧
    (analyzeLinks input options gen now).metrics.total
      = (analyzeLinks input options gen now).items.length := by
  refine ⟨?_, rfl⟩
  show (aggOf input options gen).valid + (aggOf input options gen).invalid
    = (itemsOf input options gen).length
  have h := agg_valid_invalid (itemsOf input options gen) aggInit
  simpa [aggOf, aggInit] using h

/-! ### Claim C9 -/

/-- C9: `avgLength` is the sum of the items' lengths divided by `total`,
with the division guarded: it is exactly `0` when `total = 0`; in
particular, on empty input the items are empty, `total = 0`,
`avgLength = 0`, and all three distributions are empty mappings. -/
theorem avgLength_guarded_division :
    (∀ (input : List Char) (options : AnalyzeOptions)
        (gen : Nat → List Char) (now : List Char),
      (analyzeLinks input options gen now).metrics.avgLength
        = if (analyzeLinks input options gen now).metrics.total = 0 then 0
          else ((((analyzeLinks input options gen now).items.map
                LinkRow.length).sum : Nat) : Rat)
            / (((analyzeLinks input options gen now).metrics.total : Nat) : Rat)) ∧
    (analyzeLinks (chars "") ⟨true, true⟩ gen0 []).items = [] ∧
    (analyzeLinks (chars "") ⟨true, true⟩ gen0 []).metrics.total = 0 ∧
    (analyzeLinks (chars "") ⟨true, true⟩ gen0 []).metrics.avgLength = 0 ∧
    (analyzeLinks (chars "") ⟨true, true⟩ gen0 []).distributions.protocol = [] ∧
    (analyzeLinks (chars "") ⟨true, true⟩ gen0 []).distributions.domain = [] ∧
    (analyzeLinks (chars "") ⟨true, true⟩ gen0 []).distributions.tld = [] := by
  refine ⟨?_, by decide, by decide, by decide, by decide, by decide, by decide⟩
  intro input options gen now
  have h : (aggOf input options gen).lengthSum
      = ((itemsOf input options gen).map LinkRow.length).sum := by
    have h0 := agg_lengthSum (itemsOf input options gen) aggInit
    simpa [aggOf, aggInit] using h0
  show (if (itemsOf input options gen).length = 0 then (0 : Rat)
        else ((aggOf input options gen).lengthSum : Rat)
          / ((itemsOf input options gen).length : Rat))
    = if (itemsOf input options gen).length = 0 then 0
      else ((((itemsOf input options gen).map LinkRow.length).sum : Nat) : Rat)
        / (((itemsOf input options gen).length : Nat) : Rat)
  rw [h]

/-! ### Claim C8 -/

/-- C8: `queryParams` counts key/value pairs in iteration order, not
distinct key names: `?a=1&b=2` yields 2 and `?a=1&a=2` also yields 2. -/
theorem queryParams_counts_pairs :
    (analyzeLinks (chars "http://example.com/path?a=1&b=2") ⟨true, true⟩
        gen0 []).items.map LinkRow.queryParams = [2] ∧
    (analyzeLinks (chars "http://example.com/path?a=1&a=2") ⟨true, true⟩
        gen0 []).items.map LinkRow.queryParams = [2] := by
  refine ⟨by decide, by decide⟩

/-! ### Claim C7 -/

/-- C7 counterexample: for the normalized line
`https://www.Example.com/x`, the resulting `domain` is NOT the
case-preserved `Example.com` claimed by the spec — the URL parser lowercases
the hostname before `www.` stripping. -/
theorem www_domain_lowercased_example :
    (analyzeLinks (chars "https://www.Example.com/x") ⟨true, true⟩ gen0
        []).items.map LinkRow.domain ≠ [some (chars "Example.com")] := by
  decide

/-- C7 as amended: for the normalized line `https://www.Example.com/x`, the
parser lowercases the hostname, so after `www.` stripping
`domain = "example.com"` (already lowercase), and the domain-distribution
key is the same `"example.com"`. -/
theorem www_domain_lowercase_behaviour :
    (analyzeLinks (chars "https://www.Example.com/x") ⟨true, true⟩ gen0
        []).items.map LinkRow.domain = [some (chars "example.com")] ∧
    (analyzeLinks (chars "https://www.Example.com/x") ⟨true, true⟩ gen0
        []).distributions.domain = [(chars "example.com", 1)] := by
  refine ⟨by decide, by decide⟩

/-! ### Counterexamples for C1, C3, C4, C5, C6 -/

/-- C1 counterexample: two invocations of `analyzeLinks` on the same
`(input, options)` pair but with the ambient clock in two different states
return different records (`createdAt` differs), so the function is not
deterministic in `(input, options)` alone. -/
theorem analyzeLinks_not_fully_deterministic :
    analyzeLinks (chars "") ⟨true, true⟩ gen0 (chars "t1")
      ≠ analyzeLinks (chars "") ⟨true, true⟩ gen0 (chars "t2") := by
  decide

/-- C3 counterexample: with lines `Example.com` and `example.com` and
`assumeHttps = true, dedupe = true`, the single retained item's `raw` is
`example.com` — the SECOND occurrence, not the first as claimed (a JS `Map`
overwrites the stored value on a repeated key). -/
theorem dedupe_keeps_second_raw_example :
    (analyzeLinks (chars "Example.com\nexample.com") ⟨true, true⟩ gen0
        []).items.map LinkRow.raw = [chars "example.com"] ∧
    (analyzeLinks (chars "Example.com\nexample.com") ⟨true, true⟩ gen0
        []).items.map LinkRow.raw ≠ [chars "Example.com"] := by
  refine ⟨by decide, by decide⟩

/-- C4 counterexample: for input line `nota-url` with `assumeHttps = true`,
the row is valid with `domain = "nota-url"` as claimed, but `tld` is NOT
absent: `domainToTld` returns the last nonempty dot-separated part, which
for a dotless domain is the whole domain. -/
theorem nota_url_tld_present :
    (analyzeLinks (chars "nota-url") ⟨true, true⟩ gen0 []).items.map
        LinkRow.isValid = [true] ∧
    (analyzeLinks (chars "nota-url") ⟨true, true⟩ gen0 []).items.map
        LinkRow.domain = [some (chars "nota-url")] ∧
    (analyzeLinks (chars "nota-url") ⟨true, true⟩ gen0 []).items.map
        LinkRow.tld = [some (chars "nota-url")] ∧
    (analyzeLinks (chars "nota-url") ⟨true, true⟩ gen0 []).items.map
        LinkRow.tld ≠ [none] := by
  refine ⟨by decide, by decide, by decide, by decide⟩

/-- C5 counterexample: the line `a:b` produces a VALID row (opaque-path
URL) whose `hostname`, `domain` and `tld` are all absent while `error` is
also absent — neither "all success fields present" nor "error present"
holds, refuting the claimed exactly-one invariant. -/
theorem valid_row_without_hostname_example :
    (analyzeLinks (chars "a:b") ⟨true, true⟩ gen0 []).items.map
        LinkRow.isValid = [true] ∧
    (analyzeLinks (chars "a:b") ⟨true, true⟩ gen0 []).items.map
        LinkRow.error = [none] ∧
    (analyzeLinks (chars "a:b") ⟨true, true⟩ gen0 []).items.map
        LinkRow.hostname = [none] ∧
    (analyzeLinks (chars "a:b") ⟨true, true⟩ gen0 []).items.map
        LinkRow.protocol = [some (chars "a")] := by
  refine ⟨by decide, by decide, by decide, by decide⟩

/-- C6 counterexample: for the input line `" example.com"` (leading space),
the produced row's `raw` is the trimmed `"example.com"`, not the original
line text with its whitespace as claimed. -/
theorem raw_is_trimmed_example :
    (analyzeLinks (chars " example.com") ⟨true, true⟩ gen0 []).items.map
        LinkRow.raw = [chars "example.com"] ∧
    (analyzeLinks (chars " example.com") ⟨true, true⟩ gen0 []).items.map
        LinkRow.raw ≠ [chars " example.com"] := by
  refine ⟨by decide, by decide⟩

/-! ### Row-shape lemmas -/

theorem classifyRow_raw (i a n : List Char) : (classifyRow i a n).raw = a := by
  cases h : parseURL n <;> simp [classifyRow, h, baseRow]

theorem classifyRow_normalized (i a n : List Char) :
    (classifyRow i a n).normalized = n := by
  cases h : parseURL n <;> simp [classifyRow, h, baseRow]

theorem mkRows_map_raw (g : Nat → List Char) :
    ∀ (k : Nat) (l : List (List Char × List Char)),
    (mkRows g k l).map LinkRow.raw = l.map Prod.fst := by
  intro k l
  induction l generalizing k with
  | nil => rfl
  | cons p rest ih =>
    cases p with
    | mk a b => simp [mkRows, classifyRow_raw, ih]

theorem mkRows_map_raw_normalized (g : Nat → List Char) :
    ∀ (k : Nat) (l : List (List Char × List Char)),
    (mkRows g k l).map (fun r => (r.raw, r.normalized)) = l := by
  intro k l
  induction l generalizing k with
  | nil => rfl
  | cons p rest ih =>
    cases p with
    | mk a b =>
      simp [mkRows, classifyRow_raw, classifyRow_normalized, ih]

theorem mem_mkRows (g : Nat → List Char) :
    ∀ (k : Nat) (l : List (List Char × List Char)) (r : LinkRow),
    r ∈ mkRows g k l → ∃ i a n, r = classifyRow i a n := by
  intro k l
  induction l generalizing k with
  | nil => intro r h; simp [mkRows] at h
  | cons p rest ih =>
    intro r h
    cases p with
    | mk a b =>
      simp only [mkRows, List.mem_cons] at h
      rcases h with h | h
      · exact ⟨g k, a, b, h⟩
      · exact ih (k + 1) r h

/-! ### Claim C6 -/

/-- C6 as amended: a produced row's `raw` is the corresponding input line
AFTER whitespace trimming (so it equals the original line text exactly when
the line carried no surrounding whitespace); with `dedupe` off the items'
`raw` fields are exactly the trimmed nonempty lines, in order. -/
theorem items_raw_eq_trimmed_lines (input : List Char) (ah : Bool)
    (gen : Nat → List Char) (now : List Char) :
    (analyzeLinks input ⟨ah, false⟩ gen now).items.map LinkRow.raw
      = linesOf input := by
  show (mkRows gen 0 (normalizedPairs input ah)).map LinkRow.raw = linesOf input
  rw [mkRows_map_raw]
  unfold normalizedPairs
  rw [List.map_map]
  have hid : (Prod.fst ∘ fun raw => (raw, normalizeLine raw ah))
      = id (α := List Char) := by
    funext x; rfl
  rw [hid, List.map_id]

/-! ### Claim C4 -/

theorem splitOnChar_no_sep (sep : Char) (l : List Char)
    (h : ∀ c ∈ l, c ≠ sep) : splitOnChar sep l = [l] := by
  induction l with
  | nil => rfl
  | cons c rest ih =>
    have hc : ¬(c = sep) := h c (by simp)
    have hr : splitOnChar sep rest = [rest] :=
      ih (fun d hd => h d (by simp [hd]))
    simp [splitOnChar, hr, hc]

/-- C4 as amended: `tld` is the lowercased LAST NONEMPTY dot-separated part
of the domain, so for a nonempty domain containing no dot it is PRESENT and
equals the lowercased domain itself (`nota-url` gets `tld = "nota-url"`,
not an absent `tld`; see `nota_url_tld_present`). -/
theorem domainToTld_dotless_present (d : List Char) (h1 : d ≠ [])
    (h2 : '.' ∉ d) : domainToTld d = some (toLowerCaseL d) := by
  have hs : splitOnChar '.' d = [d] :=
    splitOnChar_no_sep '.' d (fun c hc he => h2 (he ▸ hc))
  have hne : d.isEmpty = false := by
    cases d with
    | nil => exact absurd rfl h1
    | cons a l => rfl
  simp [domainToTld, hs, hne]

theorem domainToTld_dotless_present_witness :
    chars "nota-url" ≠ [] ∧
    domainToTld (chars "nota-url") = some (toLowerCaseL (chars "nota-url")) :=
  ⟨by decide, domainToTld_dotless_present (chars "nota-url") (by decide)
    (by decide)⟩

/-! ### Claim C5 -/

/-- C5 as amended: every produced row satisfies: `error` is present exactly
when the row is invalid; a valid row always carries `protocol` and
`pathname`, while `hostname`, `domain`, `tld` may be absent (host-less
URLs — see `valid_row_without_hostname_example`); an invalid row has all
five success fields absent; `raw`, `normalized` and `length` are always
present, with `length` the length of `normalized`. -/
theorem row_validity_field_invariant (input : List Char)
    (options : AnalyzeOptions) (gen : Nat → List Char) (now : List Char)
    (r : LinkRow) (hr : r ∈ (analyzeLinks input options gen now).items) :
    (r.error = none ↔ r.isValid = true) ∧
    (r.isValid = true → r.protocol.isSome = true ∧ r.pathname.isSome = true) ∧
    (r.isValid = false →
      r.protocol = none ∧ r.hostname = none ∧ r.domain = none ∧
      r.tld = none ∧ r.pathname = none) ∧
    r.length = r.normalized.length := by
  have hr' : r ∈ mkRows gen 0 (uniqueOf input options) := hr
  obtain ⟨i, a, n, rfl⟩ := mem_mkRows gen 0 (uniqueOf input options) r hr'
  cases h : parseURL n <;> simp [classifyRow, h, baseRow]

/-- A concrete valid host-less row: the one `analyzeLinks` produces for the
single input line `a:b`. -/
def rowAB : LinkRow :=
  { id := [], raw := chars "a:b", normalized := chars "a:b", isValid := true,
    error := none, protocol := some (chars "a"), hostname := none,
    domain := none, tld := none, pathname := some (chars "b"),
    queryParams := 0, hasHash := false, length := 3 }

theorem row_validity_field_invariant_witness :
    (rowAB.error = none ↔ rowAB.isValid = true) ∧
    (rowAB.isValid = true →
      rowAB.protocol.isSome = true ∧ rowAB.pathname.isSome = true) ∧
    (rowAB.isValid = false →
      rowAB.protocol = none ∧ rowAB.hostname = none ∧ rowAB.domain = none ∧
      rowAB.tld = none ∧ rowAB.pathname = none) ∧
    rowAB.length = rowAB.normalized.length :=
  row_validity_field_invariant (chars "a:b") ⟨true, true⟩ gen0 [] rowAB
    (by decide)

/-! ### Claim C3 -/

/-- Value stored under key `k` after replaying the tail of entries, starting
from default `v` (last write wins). -/
def lastValD {α : Type} : List (List Char × α) → List Char → α → α
  | [], _, v => v
  | (k1, v1) :: rest, k, v =>
    if k1 = k then lastValD rest k v1 else lastValD rest k v

/-- Spec-side model of the amended dedup contract: each distinct key is kept
at the position of its FIRST occurrence, carrying the value of its LAST
occurrence. -/
def mapModel {α : Type} : List (List Char × α) → List (List Char × α)
  | [] => []
  | (k, v) :: rest =>
    (k, lastValD rest k v) ::
      mapModel (rest.filter (fun p => !(decide (p.1 = k))))
termination_by l => l.length
decreasing_by
  simp only [List.length_cons]
  exact Nat.lt_succ_of_le (List.length_filter_le _ _)

theorem foldl_mapInsert_cons {α : Type} :
    ∀ (l m : List (List Char × α)) (k : List Char) (v : α),
    List.foldl (fun m p => mapInsert m p.1 p.2) ((k, v) :: m) l
      = (k, lastValD l k v) ::
        List.foldl (fun m p => mapInsert m p.1 p.2) m
          (l.filter (fun p => !(decide (p.1 = k)))) := by
  intro l
  induction l with
  | nil => intro m k v; rfl
  | cons p rest ih =>
    intro m k v
    cases p with
    | mk k1 v1 =>
      by_cases hk : k1 = k
      · subst hk
        have h1 : mapInsert ((k1, v) :: m) k1 v1 = (k1, v1) :: m := by
          simp [mapInsert]
        have h2 : List.filter (fun p => !(decide (p.1 = k1))) ((k1, v1) :: rest)
            = List.filter (fun p => !(decide (p.1 = k1))) rest := by
          simp [List.filter_cons]
        have h3 : lastValD ((k1, v1) :: rest) k1 v = lastValD rest k1 v1 := by
          simp [lastValD]
        calc List.foldl (fun m p => mapInsert m p.1 p.2) ((k1, v) :: m)
              ((k1, v1) :: rest)
            = List.foldl (fun m p => mapInsert m p.1 p.2) ((k1, v1) :: m)
              rest := by
              simp only [List.foldl_cons]; rw [h1]
          _ = (k1, lastValD rest k1 v1) ::
              List.foldl (fun m p => mapInsert m p.1 p.2) m
                (List.filter (fun p => !(decide (p.1 = k1))) rest) :=
              ih m k1 v1
          _ = (k1, lastValD ((k1, v1) :: rest) k1 v) ::
              List.foldl (fun m p => mapInsert m p.1 p.2) m
                (List.filter (fun p => !(decide (p.1 = k1)))
                  ((k1, v1) :: rest)) := by
              rw [h2, h3]
      · have hk' : ¬(k = k1) := fun h => hk h.symm
        have h1 : mapInsert ((k, v) :: m) k1 v1
            = (k, v) :: mapInsert m k1 v1 := by
          simp [mapInsert, hk']
        have h2 : List.filter (fun p => !(decide (p.1 = k))) ((k1, v1) :: rest)
            = (k1, v1) :: List.filter (fun p => !(decide (p.1 = k))) rest := by
          simp [List.filter_cons, hk]
        have h3 : lastValD ((k1, v1) :: rest) k v = lastValD rest k v := by
          simp [lastValD, hk]
        calc List.foldl (fun m p => mapInsert m p.1 p.2) ((k, v) :: m)
              ((k1, v1) :: rest)
            = List.foldl (fun m p => mapInsert m p.1 p.2)
              ((k, v) :: mapInsert m k1 v1) rest := by
              simp only [List.foldl_cons]; rw [h1]
          _ = (k, lastValD rest k v) ::
              List.foldl (fun m p => mapInsert m p.1 p.2) (mapInsert m k1 v1)
                (List.filter (fun p => !(decide (p.1 = k))) rest) :=
              ih (mapInsert m k1 v1) k v
          _ = (k, lastValD ((k1, v1) :: rest) k v) ::
              List.foldl (fun m p => mapInsert m p.1 p.2) m
                (List.filter (fun p => !(decide (p.1 = k)))
                  ((k1, v1) :: rest)) := by
              rw [h2, h3]
              simp only [List.foldl_cons]

theorem jsMapOfList_eq_mapModel {α : Type} :
    ∀ (n : Nat) (l : List (List Char × α)), l.length ≤ n →
    jsMapOfList l = mapModel l := by
  intro n
  induction n with
  | zero =>
    intro l hl
    have h0 : l = [] := List.length_eq_zero.mp (Nat.le_zero.mp hl)
    subst h0
    simp [jsMapOfList, mapModel]
  | succ n ih =>
    intro l hl
    match l with
    | [] => simp [jsMapOfList, mapModel]
    | (k, v) :: rest =>
      have h1 : jsMapOfList ((k, v) :: rest)
          = List.foldl (fun m p => mapInsert m p.1 p.2) ((k, v) :: []) rest :=
        rfl
      have h2 : (rest.filter (fun p => !(decide (p.1 = k)))).length ≤ n := by
        have h3 := List.length_filter_le (fun p => !(decide (p.1 = k))) rest
        simp only [List.length_cons] at hl
        omega
      rw [h1, foldl_mapInsert_cons rest [] k v]
      have h4 : List.foldl (fun m p => mapInsert m p.1 p.2) []
            (rest.filter (fun p => !(decide (p.1 = k))))
          = jsMapOfList (rest.filter (fun p => !(decide (p.1 = k)))) := rfl
      rw [h4, ih _ h2]
      simp only [mapModel]

/-- C3 as amended: with `dedupe = true` the items are, in order, one per
distinct lowercase `normalized` value at the position of that value's FIRST
occurrence, but the `(raw, normalized)` pair retained for each value is its
LAST occurrence (JS `Map` overwrites on key collision); the claimed
first-occurrence retention fails (`dedupe_keeps_second_raw_example`). -/
theorem dedupe_first_position_last_value (input : List Char) (ah : Bool)
    (gen : Nat → List Char) (now : List Char) :
    (analyzeLinks input ⟨ah, true⟩ gen now).items.map
        (fun r => (r.raw, r.normalized))
      = (mapModel ((normalizedPairs input ah).map
          (fun it => (toLowerCaseL it.2, it)))).map Prod.snd := by
  show (mkRows gen 0 (dedupeNormalized (normalizedPairs input ah))).map
      (fun r => (r.raw, r.normalized)) = _
  rw [mkRows_map_raw_normalized]
  unfold dedupeNormalized
  rw [jsMapOfList_eq_mapModel
    ((normalizedPairs input ah).map (fun it => (toLowerCaseL it.2, it))).length
    _ le_rfl]

/-! ### Claim C1 -/

/-- Forget the per-row generated id, the only row field drawn from the
ambient `safeId` state. -/
def eraseRowId (r : LinkRow) : LinkRow := { r with id := [] }

theorem classifyRow_eraseId (i a n : List Char) :
    eraseRowId (classifyRow i a n) = classifyRow [] a n := by
  cases h : parseURL n <;> simp [classifyRow, h, baseRow, eraseRowId]

theorem mkRows_map_eraseId (g : Nat → List Char) :
    ∀ (k : Nat) (l : List (List Char × List Char)),
    (mkRows g k l).map eraseRowId
      = l.map (fun p => classifyRow [] p.1 p.2) := by
  intro k l
  induction l generalizing k with
  | nil => rfl
  | cons p rest ih =>
    cases p with
    | mk a b => simp [mkRows, classifyRow_eraseId, ih]

theorem mkRows_length (g : Nat → List Char) :
    ∀ (k : Nat) (l : List (List Char × List Char)),
    (mkRows g k l).length = l.length := by
  intro k l
  induction l generalizing k with
  | nil => rfl
  | cons p rest ih =>
    cases p with
    | mk a b => simp [mkRows, ih]

theorem aggStep_eraseId (st : AggState) (r : LinkRow) :
    aggStep st (eraseRowId r) = aggStep st r := rfl

theorem foldl_agg_mkRows (g : Nat → List Char) :
    ∀ (k : Nat) (l : List (List Char × List Char)) (st : AggState),
    (mkRows g k l).foldl aggStep st
      = (l.map (fun p => classifyRow [] p.1 p.2)).foldl aggStep st := by
  intro k l
  induction l generalizing k with
  | nil => intro st; rfl
  | cons p rest ih =>
    intro st
    cases p with
    | mk a b =>
      simp only [mkRows, List.map_cons, List.foldl_cons]
      have hstep : aggStep st (classifyRow (g k) a b)
          = aggStep st (classifyRow [] a b) := by
        rw [← aggStep_eraseId st (classifyRow (g k) a b),
          classifyRow_eraseId]
      rw [hstep]
      exact ih (k + 1) _

/-- C1 as amended: `analyzeLinks` is deterministic in `(input, options)`
up to the freshly generated identifiers and the timestamp: for any two
ambient id/clock states, the two reports have the same `input` echo, the
same `metrics`, the same `distributions`, and the same `items` once each
row's generated `id` is erased.  Full record equality (same `id` and
`createdAt`) fails between real invocations, whose ambient state differs
(`analyzeLinks_not_fully_deterministic`); it holds trivially when the same
id stream and timestamp are supplied. -/
theorem analyzeLinks_deterministic_except_ids (input : List Char)
    (options : AnalyzeOptions) (g1 g2 : Nat → List Char)
    (t1 t2 : List Char) :
    (analyzeLinks input options g1 t1).input
        = (analyzeLinks input options g2 t2).input ∧
    (analyzeLinks input options g1 t1).metrics
        = (analyzeLinks input options g2 t2).metrics ∧
    (analyzeLinks input options g1 t1).distributions
        = (analyzeLinks input options g2 t2).distributions ∧
    (analyzeLinks input options g1 t1).items.map eraseRowId
        = (analyzeLinks input options g2 t2).items.map eraseRowId := by
  have hagg : aggOf input options g1 = aggOf input options g2 := by
    show (mkRows g1 0 (uniqueOf input options)).foldl aggStep aggInit
      = (mkRows g2 0 (uniqueOf input options)).foldl aggStep aggInit
    rw [foldl_agg_mkRows g1, foldl_agg_mkRows g2]
  have hlen : (itemsOf input options g1).length
      = (itemsOf input options g2).length := by
    show (mkRows g1 0 (uniqueOf input options)).length
      = (mkRows g2 0 (uniqueOf input options)).length
    rw [mkRows_length g1, mkRows_length g2]
  refine ⟨rfl, ?_, ?_, ?_⟩
  · show Metrics.mk (itemsOf input options g1).length
        (aggOf input options g1).valid (aggOf input options g1).invalid
        (aggOf input options g1).domainDist.length
        (aggOf input options g1).withQuery (aggOf input options g1).withHash
        (if (itemsOf input options g1).length = 0 then 0
         else ((aggOf input options g1).lengthSum : Rat)
           / ((itemsOf input options g1).length : Rat))
      = Metrics.mk (itemsOf input options g2).length
        (aggOf input options g2).valid (aggOf input options g2).invalid
        (aggOf input options g2).domainDist.length
        (aggOf input options g2).withQuery (aggOf input options g2).withHash
        (if (itemsOf input options g2).length = 0 then 0
         else ((aggOf input options g2).lengthSum : Rat)
           / ((itemsOf input options g2).length : Rat))
    rw [hagg, hlen]
  · show Distributions.mk (aggOf input options g1).protocolDist
        (aggOf input options g1).domainDist (aggOf input options g1).tldDist
      = Distributions.mk (aggOf input options g2).protocolDist
        (aggOf input options g2).domainDist (aggOf input options g2).tldDist
    rw [hagg]
  · show (mkRows g1 0 (uniqueOf input options)).map eraseRowId
      = (mkRows g2 0 (uniqueOf input options)).map eraseRowId
    rw [mkRows_map_eraseId g1, mkRows_map_eraseId g2]

/-! ### Claim C10 -/

theorem trimLeftWs_length_le (l : List Char) :
    (trimLeftWs l).length ≤ l.length := by
  induction l with
  | nil => simp [trimLeftWs]
  | cons c rest ih =>
    by_cases h : jsWs c = true
    · simp only [trimLeftWs, h, if_true, List.length_cons]
      omega
    · simp [trimLeftWs, h]

theorem trimLeftWs_exists_append (l : List Char) :
    ∃ p, l = p ++ trimLeftWs l := by
  induction l with
  | nil => exact ⟨[], rfl⟩
  | cons c rest ih =>
    by_cases h : jsWs c = true
    · obtain ⟨p, hp⟩ := ih
      refine ⟨c :: p, ?_⟩
      simp only [trimLeftWs, h, if_true, List.cons_append]
      exact congrArg (c :: ·) hp
    · refine ⟨[], ?_⟩
      simp [trimLeftWs, h]

theorem trimLeftWs_head_not_ws (c : Char) (r : List Char)
    (h : trimLeftWs (c :: r) = c :: r) : jsWs c = false := by
  cases hc : jsWs c with
  | false => rfl
  | true =>
    exfalso
    rw [trimLeftWs, if_pos hc] at h
    have h1 := trimLeftWs_length_le r
    rw [h] at h1
    simp at h1

theorem trimLeftWs_idem (l : List Char) :
    trimLeftWs (trimLeftWs l) = trimLeftWs l := by
  induction l with
  | nil => rfl
  | cons c rest ih =>
    by_cases h : jsWs c = true
    · simpa [trimLeftWs, h] using ih
    · simp [trimLeftWs, h]

theorem trimRightWs_idem (l : List Char) :
    trimRightWs (trimRightWs l) = trimRightWs l := by
  unfold trimRightWs
  rw [List.reverse_reverse, trimLeftWs_idem]

theorem trimRightWs_exists_append (l : List Char) :
    ∃ q, l = trimRightWs l ++ q := by
  obtain ⟨p, hp⟩ := trimLeftWs_exists_append l.reverse
  refine ⟨p.reverse, ?_⟩
  conv_lhs => rw [← List.reverse_reverse l, hp]
  simp [trimRightWs, List.reverse_append]

theorem jsTrim_idem (l : List Char) : jsTrim (jsTrim l) = jsTrim l := by
  unfold jsTrim
  have hu2 : trimLeftWs (trimLeftWs l) = trimLeftWs l := trimLeftWs_idem l
  have h1 : trimLeftWs (trimRightWs (trimLeftWs l))
      = trimRightWs (trimLeftWs l) := by
    obtain ⟨q, hq⟩ := trimRightWs_exists_append (trimLeftWs l)
    cases hb : trimRightWs (trimLeftWs l) with
    | nil => rfl
    | cons c b =>
      have hu3 : trimLeftWs l = c :: (b ++ q) := by
        rw [hq, hb]; simp
      rw [hu3] at hu2
      have hcw : jsWs c = false := trimLeftWs_head_not_ws c (b ++ q) hu2
      simp [trimLeftWs, hcw]
  rw [h1, trimRightWs_idem]

theorem jsTrim_eq_self_parts (t : List Char) (h : jsTrim t = t) :
    trimLeftWs t = t ∧ trimRightWs t = t := by
  have l1 : (trimLeftWs t).length ≤ t.length := trimLeftWs_length_le t
  have l2 : (trimRightWs (trimLeftWs t)).length ≤ (trimLeftWs t).length := by
    unfold trimRightWs
    calc (trimLeftWs (trimLeftWs t).reverse).reverse.length
        = (trimLeftWs (trimLeftWs t).reverse).length := by simp
      _ ≤ (trimLeftWs t).reverse.length := trimLeftWs_length_le _
      _ = (trimLeftWs t).length := by simp
  have heq : (jsTrim t).length = t.length := by rw [h]
  unfold jsTrim at heq
  have hL : (trimLeftWs t).length = t.length := le_antisymm l1 (by omega)
  obtain ⟨p, hp⟩ := trimLeftWs_exists_append t
  have hp0 : p = [] := by
    have hlen := congrArg List.length hp
    simp only [List.length_append, hL] at hlen
    have : p.length = 0 := by omega
    exact List.length_eq_zero.mp this
  have hTL : trimLeftWs t = t := by
    conv_rhs => rw [hp, hp0]
    simp
  refine ⟨hTL, ?_⟩
  have h2 : jsTrim t = trimRightWs t := by unfold jsTrim; rw [hTL]
  rw [← h2, h]

theorem trimmed_last_not_ws (t : List Char) (h : jsTrim t = t)
    (hne : t ≠ []) : ∃ c b, t.reverse = c :: b ∧ jsWs c = false := by
  have hTR : trimRightWs t = t := (jsTrim_eq_self_parts t h).2
  have hrev : trimLeftWs t.reverse = t.reverse := by
    have h3 : (trimLeftWs t.reverse).reverse = t := hTR
    calc trimLeftWs t.reverse
        = ((trimLeftWs t.reverse).reverse).reverse := by simp
      _ = t.reverse := by rw [h3]
  cases hb : t.reverse with
  | nil =>
    exfalso
    apply hne
    have := congrArg List.reverse hb
    simpa using this
  | cons c b =>
    rw [hb] at hrev
    exact ⟨c, b, rfl, trimLeftWs_head_not_ws c b hrev⟩

theorem jsTrim_append_of_ends (pre t : List Char)
    (hpre : trimLeftWs (pre ++ t) = pre ++ t)
    (h : jsTrim t = t) (hne : t ≠ []) : jsTrim (pre ++ t) = pre ++ t := by
  unfold jsTrim
  rw [hpre]
  obtain ⟨c, b, hb, hcw⟩ := trimmed_last_not_ws t h hne
  unfold trimRightWs
  rw [List.reverse_append, hb]
  have h4 : trimLeftWs ((c :: b) ++ pre.reverse)
      = (c :: b) ++ pre.reverse := by
    simp [trimLeftWs, hcw]
  rw [h4, ← hb, ← List.reverse_append]
  simp

theorem normalizeLine_fixed (r : List Char) (ah : Bool)
    (h1 : jsTrim r = r) (h2 : r ≠ [])
    (h3 : startsWithSlashSlash r = false)
    (h4 : ah = false ∨ hasSchemeB r = true) :
    normalizeLine r ah = r := by
  have hlen : ¬(r.length = 0) := fun hc => h2 (List.length_eq_zero.mp hc)
  simp only [normalizeLine, h1]
  rw [if_neg hlen]
  simp only [h3, Bool.false_eq_true, if_false]
  rcases h4 with h4 | h4
  · subst h4
    simp
  · simp [h4]

/-- C10: `normalizeLine` is idempotent — normalizing an already normalized
line (under the same `assumeHttps`) changes nothing. -/
theorem normalizeLine_idempotent (s : List Char) (ah : Bool) :
    normalizeLine (normalizeLine s ah) ah = normalizeLine s ah := by
  by_cases h0 : (jsTrim s).length = 0
  · have hs : normalizeLine s ah = [] := by
      simp only [normalizeLine]
      rw [if_pos h0]
    rw [hs]
    rfl
  · have hidem : jsTrim (jsTrim s) = jsTrim s := jsTrim_idem s
    have htne : jsTrim s ≠ [] := by
      intro hc
      rw [hc] at h0
      exact h0 rfl
    by_cases h1 : startsWithSlashSlash (jsTrim s) = true
    · have hs : normalizeLine s ah = chars "https:" ++ jsTrim s := by
        simp only [normalizeLine]
        rw [if_neg h0, if_pos h1]
      rw [hs]
      apply normalizeLine_fixed
      · exact jsTrim_append_of_ends (chars "https:") (jsTrim s) rfl hidem htne
      · intro hc
        rw [List.append_eq_nil] at hc
        exact absurd hc.1 (by decide)
      · rfl
      · cases ah with
        | false => exact Or.inl rfl
        | true => exact Or.inr rfl
    · have h1f : startsWithSlashSlash (jsTrim s) = false := by
        cases hb : startsWithSlashSlash (jsTrim s)
        · rfl
        · exact absurd hb h1
      cases ah with
      | false =>
        have hs : normalizeLine s false = jsTrim s := by
          simp only [normalizeLine]
          rw [if_neg h0]
          simp [h1f]
        rw [hs]
        exact normalizeLine_fixed (jsTrim s) false hidem htne h1f (Or.inl rfl)
      | true =>
        by_cases h2 : hasSchemeB (jsTrim s) = true
        · have hs : normalizeLine s true = jsTrim s := by
            simp only [normalizeLine]
            rw [if_neg h0]
            simp [h1f, h2]
          rw [hs]
          exact normalizeLine_fixed (jsTrim s) true hidem htne h1f (Or.inr h2)
        · have h2f : hasSchemeB (jsTrim s) = false := by
            cases hb : hasSchemeB (jsTrim s)
            · rfl
            · exact absurd hb h2
          have hs : normalizeLine s true = chars "https://" ++ jsTrim s := by
            simp only [normalizeLine]
            rw [if_neg h0]
            simp [h1f, h2f]
          rw [hs]
          apply normalizeLine_fixed
          · exact jsTrim_append_of_ends (chars "https://") (jsTrim s) rfl
              hidem htne
          · intro hc
            rw [List.append_eq_nil] at hc
            exact absurd hc.1 (by decide)
          · rfl
          · exact Or.inr rfl
